import Mathlib

/-
Verification of the Snipper snippet-reconciliation tool (src/main.rs) against
its natural-language specification.

The program text is embedded shallowly:
  - Rust `String` / `&str` values are Lean `String`s; the scanners work over
    `List Char` (the character sequence of the text, mirroring byte-level
    regex matching on the UTF-8 text for the ASCII inputs the tool targets).
  - The three regex patterns are embedded as committed lazy matchers:
    each quantifier in the source patterns is non-greedy, so a match commits
    to the first occurrence of each delimiter, which is exactly what
    `splitFirst` computes.  The theorems about the scanners carry
    side conditions that keep the input inside the region where this
    committed matching agrees with leftmost regex matching.
  - `HashMap<String, Snippet>` is an association list without duplicate
    keys; `insert` replaces, `entry().or_insert(v)` inserts only when the
    key is absent, mirroring the std semantics used in main().
  - The extraction phase models the filesystem as a function from paths to
    optional file contents.  `OpenOptions::write(true).create(true)` (no
    truncate) followed by `write_all` overwrites the first `content.len()`
    bytes and keeps the tail of a longer pre-existing file; `create_new`
    fails when the file exists.
-/

namespace Snipper



/- ## Character-list scanning primitives -/

/-- Whether `pat` occurs as a contiguous sublist of `s`. -/
def containsB (pat : List Char) : List Char → Bool
  | [] => pat.isPrefixOf []
  | c :: rest => pat.isPrefixOf (c :: rest) || containsB pat rest

/-- Split `s` at the first occurrence of `pat`: returns the part before the
occurrence and the part after it.  This is the committed form of a
non-greedy match up to the literal `pat`. -/
def splitFirst (pat : List Char) : List Char → Option (List Char × List Char)
  | [] => if pat.isPrefixOf ([] : List Char) then some ([], []) else none
  | c :: rest =>
    if pat.isPrefixOf (c :: rest) then some ([], (c :: rest).drop pat.length)
    else (splitFirst pat rest).map (fun pr => (c :: pr.1, pr.2))

/- ## The tag grammar (regex `snippet_pattern_active` / `snippet_pattern_inactive`)

The source patterns are, for the active variant,
`(// SNIPPET:BEGIN \{(?P<BEGIN>.*?)\}(\$\{(?P<COMMENT>.*?)\})?(?P<SNIPPET>.*?)// SNIPPET:END \{(?P<END>.*?)\})`
with `dot_matches_new_line(true)`; the inactive variant prepends an
underscore to both marker words.  Every quantifier is lazy, so a match is a
chain of first-occurrence splits, embedded below. -/

def lbrace : Char := '\x7b'

def rbrace : Char := '\x7d'

def activeBegin : List Char := "// SNIPPET:BEGIN \x7b".toList

def activeEnd : List Char := "// SNIPPET:END \x7b".toList

def inactiveBegin : List Char := "// _SNIPPET:BEGIN \x7b".toList

def inactiveEnd : List Char := "// _SNIPPET:END \x7b".toList

/-- One capture of a tag pattern: the `BEGIN`, optional `COMMENT`, `SNIPPET`
and `END` groups.  The name groups and the body always participate in a
match; the comment group is optional. -/
structure Fragment where
  tagBegin : String
  comment : Option String
  body : String
  tagEnd : String
deriving DecidableEq

/-- Tail of a tag match after the optional `(\$\{(?P<COMMENT>.*?)\})?` group:
lazily capture the body up to the end marker, then the end name up to the
closing brace. -/
def scanTagAfterDesc (endM nm : List Char) (d : Option (List Char)) (r : List Char) :
    Option (Fragment × List Char) :=
  match splitFirst endM r with
  | none => none
  | some pr3 =>
    match splitFirst [rbrace] pr3.2 with
    | none => none
    | some pr4 =>
      some ({ tagBegin := nm.asString, comment := d.map List.asString,
              body := pr3.1.asString, tagEnd := pr4.1.asString }, pr4.2)

/-- The optional comment group: if `$\x7b` follows the begin name, capture
lazily up to the next closing brace; if that fails the optional group is
skipped, as a regex backtracks over an unmatched optional group. -/
def scanTagDesc (endM nm r2 : List Char) : Option (Fragment × List Char) :=
  if ['$', lbrace].isPrefixOf r2 = true then
    match splitFirst [rbrace] (r2.drop 2) with
    | some pr => scanTagAfterDesc endM nm (some pr.1) pr.2
    | none => scanTagAfterDesc endM nm none r2
  else scanTagAfterDesc endM nm none r2

/-- One leftmost match of a tag pattern in `s`: find the begin marker, the
begin name up to `\x7d`, the optional comment, the body up to the end
marker, and the end name up to `\x7d`.  Returns the capture and the rest of
the text after the match, from which `captures_iter` continues. -/
def scanTagOne (begM endM s : List Char) : Option (Fragment × List Char) :=
  match splitFirst begM s with
  | none => none
  | some pr1 =>
    match splitFirst [rbrace] pr1.2 with
    | none => none
    | some pr2 => scanTagDesc endM pr2.1 pr2.2

/-- Fueled iteration of `scanTagOne`, the embedding of `captures_iter`:
collect successive non-overlapping leftmost matches. -/
def scanTagsF (begM endM : List Char) : Nat → List Char → List Fragment
  | 0, _ => []
  | Nat.succ fuel, s =>
    match scanTagOne begM endM s with
    | none => []
    | some fr => fr.1 :: scanTagsF begM endM fuel fr.2

/-- All active-tag captures of one file's text, in order. -/
def scanActive (s : List Char) : List Fragment :=
  scanTagsF activeBegin activeEnd (s.length + 1) s

/-- All inactive-tag captures of one file's text, in order. -/
def scanInactive (s : List Char) : List Fragment :=
  scanTagsF inactiveBegin inactiveEnd (s.length + 1) s

/-- The text of the optional description segment as it appears between the
begin name and the body: empty when absent, `$\x7b…\x7d` when present. -/
def descSeg : Option (List Char) → List Char
  | none => []
  | some d => '$' :: lbrace :: (d ++ [rbrace])

/-- Side condition under which the optional comment group behaves plainly:
an absent description requires that the text after the begin name does not
start with `$\x7b`; a present description must not contain `\x7d`. -/
def descOk : Option (List Char) → List Char → Prop
  | none, tail => ['$', lbrace].isPrefixOf tail = false
  | some d, _ => rbrace ∉ d

/- ## The data model (struct Snippet and Snippet::new) -/

/-- The canonical snippet record, mirroring `struct Snippet` in main.rs.
`PathBuf` is modelled as `String`. -/
structure Snippet where
  name : String
  content : Option String
  source_file : Option String
  comment : Option String
  active : Bool
  source : Bool
  latex : Bool
  extracted : Bool
deriving DecidableEq

/-- The error text produced by `Snippet::new` for mismatched tag names
(the `format!` at the end of Snippet::new).  It carries both names but not
the file path. -/
def mismatchMsg (b e : String) : String :=
  "Snippet with mismatched begin and end tags\n\"" ++ b ++ "\" != \"" ++ e ++ "\""

/-- `Snippet::new`: fails when either tag name is absent, fails with
`mismatchMsg` when the names differ, otherwise builds the record. -/
def Snippet.new (tagBegin : Option String) (content : Option String)
    (source_file : Option String) (tagEnd : Option String) (comment : Option String)
    (active source latex extracted : Bool) : Except String Snippet :=
  match tagBegin with
  | none => .error "Snippet begin tag has no name."
  | some b =>
    match tagEnd with
    | none => .error "Snippet end tag has no name."
    | some e =>
      if b = e then
        .ok { name := b, content := content, source_file := source_file, comment := comment,
              active := active, source := source, latex := latex, extracted := extracted }
      else .error (mismatchMsg b e)

/- ## The reconciliation mapping (HashMap<String, Snippet>)

An association list without duplicate keys.  `insertAL` is
`HashMap::insert` (replaces the value of an existing key), and
`upsertAL k v g` is `entry(k).or_insert(v)` followed by the in-place field
update `g` on the resulting entry. -/

abbrev AL := List (String × Snippet)

def lookupAL (k : String) : AL → Option Snippet
  | [] => none
  | p :: rest => if p.1 = k then some p.2 else lookupAL k rest

def insertAL (k : String) (v : Snippet) : AL → AL
  | [] => [(k, v)]
  | p :: rest => if p.1 = k then (k, v) :: rest else p :: insertAL k v rest

def modifyAL (k : String) (g : Snippet → Snippet) : AL → AL
  | [] => []
  | p :: rest => if p.1 = k then (p.1, g p.2) :: rest else p :: modifyAL k g rest

def upsertAL (k : String) (v : Snippet) (g : Snippet → Snippet) (m : AL) : AL :=
  modifyAL k g (if (lookupAL k m).isSome then m else insertAL k v m)

/- ## Reconciliation passes (the four scan loops of main) -/

/-- The `Snippet::new` call of the two tag-scan loops: path, captures, and
the flag quadruple `(active, true, false, false)` with `active` chosen by
the pass. -/
def mkTagSnippet (path : String) (f : Fragment) (active : Bool) : Except String Snippet :=
  Snippet.new (some f.tagBegin) (some f.body) (some path) (some f.tagEnd) f.comment
    active true false false

/-- Active-tag loop body, with the error stream: on success
`snippets.insert(name, snippet)` (replacing any existing record), on failure
the error is reported. -/
def stepActive (st : AL × List String) (pf : String × Fragment) : AL × List String :=
  match mkTagSnippet pf.1 pf.2 true with
  | .ok s => (insertAL s.name s st.1, st.2)
  | .error e => (st.1, st.2 ++ [e])

/-- The active-tag pass over a list of (path, fragment) sightings. -/
def passActive (st : AL × List String) (l : List (String × Fragment)) : AL × List String :=
  l.foldl stepActive st

/-- Map-only view of the active-tag loop body. -/
def stepActiveM (m : AL) (pf : String × Fragment) : AL :=
  match mkTagSnippet pf.1 pf.2 true with
  | .ok s => insertAL s.name s m
  | .error _ => m

def passActiveM (m : AL) (l : List (String × Fragment)) : AL :=
  l.foldl stepActiveM m

/-- Inactive-tag loop body: on success
`snippets.entry(name).or_insert(snippet).active = false`; the reported
error case leaves the mapping unchanged. -/
def stepInactiveM (m : AL) (pf : String × Fragment) : AL :=
  match mkTagSnippet pf.1 pf.2 false with
  | .ok s => upsertAL s.name s (fun t => { t with active := false }) m
  | .error _ => m

def passInactiveM (m : AL) (l : List (String × Fragment)) : AL :=
  l.foldl stepInactiveM m

/-- Inclusion loop body: `Snippet::new(name, None, None, name, None, false,
false, true, false)` then `entry(name).or_insert(snippet).latex = true`. -/
def stepInclM (m : AL) (n : String) : AL :=
  match Snippet.new (some n) none none (some n) none false false true false with
  | .ok s => upsertAL s.name s (fun t => { t with latex := true }) m
  | .error _ => m

def passInclM (m : AL) (l : List String) : AL :=
  l.foldl stepInclM m

/-- Materialized-file loop body: `Snippet::new(stem, None, None, stem, None,
false, false, false, true)` then `entry(stem).or_insert(snippet).extracted =
true`. -/
def stepStemM (m : AL) (n : String) : AL :=
  match Snippet.new (some n) none none (some n) none false false false true with
  | .ok s => upsertAL s.name s (fun t => { t with extracted := true }) m
  | .error _ => m

def passStemM (m : AL) (l : List String) : AL :=
  l.foldl stepStemM m

/-- The reconciliation engine on scanner results: the four passes in the
order main() runs them, starting from the empty mapping. -/
def reconcileFrags (A I : List (String × Fragment)) (incl stems : List String) : AL :=
  passStemM (passInclM (passInactiveM (passActiveM [] A) I) incl) stems

/-- Pair each fragment scanned from a file's text with that file's path. -/
def sourceFrags (scan : List Char → List Fragment) (files : List (String × String)) :
    List (String × Fragment) :=
  files.flatMap (fun pt => (scan pt.2.toList).map (fun f => (pt.1, f)))

/- ## The report/extractor input: sorted values of the mapping -/

def valuesAL (m : AL) : List Snippet := m.map Prod.snd

def keysAL (m : AL) : List String := m.map Prod.fst

/-- The `Ord` implementation of `Snippet` compares only the names; this is
the relation `snippets.sort()` sorts by. -/
def Snippet.nle (a b : Snippet) : Prop := a.name ≤ b.name

instance : DecidableRel Snippet.nle := fun a b => inferInstanceAs (Decidable (a.name ≤ b.name))

instance : IsTotal Snippet Snippet.nle := ⟨fun a b => le_total a.name b.name⟩

instance : IsTrans Snippet Snippet.nle := ⟨fun _ _ _ h1 h2 => le_trans h1 h2⟩

/-- `let mut snippets: Vec<_> = snippets.into_iter()...; snippets.sort();`:
the mapping's values sorted by name. -/
def finalSnippets (m : AL) : List Snippet := List.insertionSort Snippet.nle (valuesAL m)

/- ## The inclusion scanner (regex `include_pattern`)

`(\\lstinputlisting.*?\{.*/(?P<SNIPPET_NAME>.*?)\.cpp.*?\})` with
`dot_matches_new_line(false)`: after the directive word and the first
brace, a slash is mandatory; backtracking over the greedy `.*` picks the
last slash whose suffix still contains `.cpp`; the name is captured lazily
up to the first `.cpp` after it. -/

def lstMarker : List Char := "\\lstinputlisting".toList

def cppExt : List Char := ".cpp".toList

/-- The `.*/(?P<SNIPPET_NAME>.*?)\.cpp` portion on the brace-delimited
segment: deepest slash whose suffix contains `.cpp` wins; the name runs to
the first `.cpp` after it.  No slash, no match. -/
def inclNameF : Nat → List Char → Option (List Char)
  | 0, _ => none
  | Nat.succ fuel, seg =>
    match splitFirst ['/'] seg with
    | none => none
    | some pr =>
      match inclNameF fuel pr.2 with
      | some nm => some nm
      | none => (splitFirst cppExt pr.2).map Prod.fst

def inclName (seg : List Char) : Option (List Char) := inclNameF (seg.length + 1) seg

/-- All inclusion names in one document text: for each directive word, take
the single-line brace-delimited segment and extract the name; a directive
whose segment yields no name produces nothing and scanning continues. -/
def scanIncludeF : Nat → List Char → List String
  | 0, _ => []
  | Nat.succ fuel, s =>
    match splitFirst lstMarker s with
    | none => []
    | some pr1 =>
      match splitFirst [lbrace] pr1.2 with
      | none => scanIncludeF fuel pr1.2
      | some pr2 =>
        if '\n' ∈ pr2.1 then scanIncludeF fuel pr1.2
        else
          match splitFirst [rbrace] pr2.2 with
          | none => scanIncludeF fuel pr1.2
          | some pr3 =>
            if '\n' ∈ pr3.1 then scanIncludeF fuel pr1.2
            else
              match inclName pr3.1 with
              | none => scanIncludeF fuel pr1.2
              | some nm => nm.asString :: scanIncludeF fuel pr3.2

def scanInclude (s : List Char) : List String := scanIncludeF (s.length + 1) s

/- ## The extraction phase (the `if !arguments.is_present("Extract")` tail of main)

The filesystem is a partial map from paths to contents (contents as
character lists, standing for the bytes of these ASCII files). -/

abbrev FS := String → Option (List Char)

def fsWrite (fs : FS) (p : String) (c : List Char) : FS :=
  fun q => if q = p then some c else fs q

/-- `target_directory.join(&snippet.name)` followed by
`set_extension("cpp")` for the dot-free names used here. -/
def targetPath (dir nm : String) : String := dir ++ "/" ++ nm ++ ".cpp"

/-- `write_all` on a file opened without truncation: the first
`new.length` bytes are overwritten, the tail of a longer existing file
survives. -/
def writeAll (old new : List Char) : List Char := new ++ old.drop new.length

inductive ExtEvent
  | noSource (nm : String)
  | extracted (nm : String)
  | noContent (nm : String)
  | notWritten (nm : String)
deriving DecidableEq

/-- One iteration of the extraction loop.  Active snippets open with
`write(true).create(true)` (open-or-create, no truncation); inactive
snippets open with `write(true).create_new(true)` (fail if the file
exists, reported, file untouched).  A snippet without content leaves the
freshly opened file as is and warns. -/
def extractOne (dir : String) (fs : FS) (s : Snippet) : FS × ExtEvent :=
  if s.source = false then (fs, .noSource s.name)
  else
    if s.active = true then
      match s.content with
      | some c =>
        (fsWrite fs (targetPath dir s.name)
          (writeAll ((fs (targetPath dir s.name)).getD []) c.toList), .extracted s.name)
      | none =>
        (fsWrite fs (targetPath dir s.name) ((fs (targetPath dir s.name)).getD []),
          .noContent s.name)
    else
      match fs (targetPath dir s.name) with
      | some _ => (fs, .notWritten s.name)
      | none =>
        match s.content with
        | some c => (fsWrite fs (targetPath dir s.name) c.toList, .extracted s.name)
        | none => (fsWrite fs (targetPath dir s.name) [], .noContent s.name)

/-- The extraction loop over the sorted snippet list; per-snippet outcomes
are reported and never abort the remaining snippets. -/
def extractAll (dir : String) (fs : FS) : List Snippet → FS × List ExtEvent
  | [] => (fs, [])
  | s :: rest =>
    ((extractAll dir (extractOne dir fs s).1 rest).1,
      (extractOne dir fs s).2 :: (extractAll dir (extractOne dir fs s).1 rest).2)

/- ## Scanner-pass orderings (for the merge-commutativity claim) -/

inductive PassKind
  | act
  | inact
  | incls
  | stems

structure ScanInputs where
  act : List (String × Fragment)
  inact : List (String × Fragment)
  incls : List String
  stems : List String

def runPass (inp : ScanInputs) (m : AL) : PassKind → AL
  | .act => passActiveM m inp.act
  | .inact => passInactiveM m inp.inact
  | .incls => passInclM m inp.incls
  | .stems => passStemM m inp.stems

/-- Run the scanner passes over the empty mapping in a chosen order;
`runOrder inp [.act, .inact, .incls, .stems]` is the order main() uses. -/
def runOrder (inp : ScanInputs) (order : List PassKind) : AL :=
  order.foldl (runPass inp) []

def flagsOf (s : Snippet) : Bool × Bool × Bool × Bool :=
  (s.active, s.source, s.latex, s.extracted)

/- ## Concrete inputs used to settle individual claims -/

def fragA : Fragment := { tagBegin := "n", comment := none, body := "A", tagEnd := "n" }

def fragB : Fragment := { tagBegin := "n", comment := none, body := "B", tagEnd := "n" }

def inpC4 : ScanInputs := { act := [("f.cpp", fragB)], inact := [], incls := ["n"], stems := [] }

def fsC1 : FS := fun q => if q = targetPath "t" "a" then some ("OLDOLDOLD".toList) else none

def snipC1 : Snippet :=
  { name := "a", content := some "NEW", source_file := some "s.cpp", comment := none,
    active := true, source := true, latex := false, extracted := false }

def c5text : String := "// SNIPPET:BEGIN \x7bbar\x7d X// SNIPPET:END \x7bbaz\x7d"

def inclDefault (n : String) : Snippet :=
  { name := n, content := none, source_file := none, comment := none,
    active := false, source := false, latex := true, extracted := false }

def stemDefault (n : String) : Snippet :=
  { name := n, content := none, source_file := none, comment := none,
    active := false, source := false, latex := false, extracted := true }

/- ## C3: an inactive sighting forces active=false (and the record is
source-found) in the reconciled mapping -/

/-- During the two tag passes every stored record is source-found. -/
def SrcInv (m : AL) : Prop := ∀ k s, lookupAL k m = some s → s.source = true

/-- The shape C3 asserts of the record under a name: present, inactive,
source-found. -/
def PActFalse (n : String) (m : AL) : Prop :=
  ∃ s, lookupAL n m = some s ∧ s.active = false ∧ s.source = true

/- ## C9: the report/extractor input is the values sorted strictly by name -/

/-- Well-formedness of the mapping: keys are distinct and every record is
stored under its own name. -/
def GoodAL (m : AL) : Prop := (keysAL m).Nodup ∧ ∀ p ∈ m, p.2.name = p.1

/- ## C10: source-found records always carry content and source_file -/

/-- The invariant: every stored record with foundInSource=true has both a
content body and a source file path. -/
def ContentInv (m : AL) : Prop :=
  ∀ p ∈ m, p.2.source = true → p.2.content.isSome = true ∧ p.2.source_file.isSome = true

theorem containsB_of_isPrefixOf {pat s : List Char} (h : pat.isPrefixOf s = true) :
    containsB pat s = true := by
  cases s with
  | nil => simpa [containsB] using h
  | cons c rest => simp [containsB, h]

theorem containsB_tail {pat : List Char} {c : Char} {rest : List Char}
    (h : containsB pat (c :: rest) = false) : containsB pat rest = false := by
  simp only [containsB, Bool.or_eq_false_iff] at h
  exact h.2

theorem splitFirst_eq_append {pat : List Char} :
    ∀ {s a b : List Char}, splitFirst pat s = some (a, b) → s = a ++ pat ++ b := by
  intro s
  induction s with
  | nil =>
    intro a b h
    simp only [splitFirst] at h
    split at h
    · rename_i hp
      have hp' : pat <+: ([] : List Char) := List.isPrefixOf_iff_prefix.mp hp
      have : pat = [] := List.prefix_nil.mp hp'
      simp only [Option.some.injEq, Prod.mk.injEq] at h
      simp [← h.1, ← h.2, this]
    · exact absurd h (by simp)
  | cons c rest ih =>
    intro a b h
    simp only [splitFirst] at h
    split at h
    · rename_i hp
      have hp' : pat <+: c :: rest := List.isPrefixOf_iff_prefix.mp hp
      obtain ⟨t, ht⟩ := hp'
      simp only [Option.some.injEq, Prod.mk.injEq] at h
      have hdrop : (c :: rest).drop pat.length = t := by
        rw [← ht, List.drop_left]
      rw [← h.1, ← h.2, hdrop, ← ht]
      simp
    · rcases hsp : splitFirst pat rest with _ | ⟨a', b'⟩
      · rw [hsp] at h; exact absurd h (by simp)
      · rw [hsp] at h
        simp only [Option.map_some', Option.some.injEq, Prod.mk.injEq] at h
        have := ih hsp
        rw [← h.1, ← h.2]
        simp [this]

theorem splitFirst_length {pat s a b : List Char} (h : splitFirst pat s = some (a, b)) :
    s.length = a.length + pat.length + b.length := by
  have := splitFirst_eq_append h
  subst this
  simp [List.length_append]
  omega

/-- A prefix occurrence of `pat` at the head of `c :: a' ++ pat ++ b` shows
`pat` occurring strictly inside `(c :: a') ++ pat.dropLast`. -/
theorem containsB_of_head_prefix {pat : List Char} {c : Char} {a' b : List Char}
    (hp : pat.isPrefixOf (c :: (a' ++ (pat ++ b))) = true) :
    containsB pat ((c :: a') ++ pat.dropLast) = true := by
  by_cases hpat : pat = []
  · subst hpat
    exact containsB_of_isPrefixOf (by simp [List.isPrefixOf])
  · have hpre : pat <+: c :: (a' ++ (pat ++ b)) := List.isPrefixOf_iff_prefix.mp hp
    have hlen : pat.length ≤ ((c :: a') ++ pat.dropLast).length := by
      simp only [List.length_append, List.length_cons, List.length_dropLast]
      have : 1 ≤ pat.length := List.length_pos.mpr hpat
      omega
    have htk : pat = (c :: (a' ++ (pat ++ b))).take pat.length :=
      List.prefix_iff_eq_take.mp hpre
    have htk2 : ((c :: a') ++ pat.dropLast) =
        (c :: (a' ++ (pat ++ b))).take ((c :: a').length + (pat.length - 1)) := by
      have h1 : (c :: (a' ++ (pat ++ b))) = (c :: a') ++ (pat ++ b) := by simp
      rw [h1, List.take_append_eq_append_take]
      have h2 : ((c :: a').length + (pat.length - 1)) - (c :: a').length = pat.length - 1 := by
        omega
      rw [List.take_of_length_le (by omega), h2, List.take_append_eq_append_take]
      have h3 : pat.length - 1 - pat.length = 0 := by omega
      rw [h3, List.take_zero, List.append_nil, List.dropLast_eq_take]
    have hpre2 : pat <+: ((c :: a') ++ pat.dropLast) := by
      rw [List.prefix_iff_eq_take, htk2]
      rw [List.take_take]
      have hmin : min pat.length ((c :: a').length + (pat.length - 1)) = pat.length := by
        simp only [List.length_append, List.length_cons, List.length_dropLast] at hlen
        simp only [List.length_cons]
        omega
      rw [hmin, ← htk]
    exact containsB_of_isPrefixOf (List.isPrefixOf_iff_prefix.mpr hpre2)

/-- Committed lazy matching: when `pat` does not occur before the designated
occurrence (not even straddling the boundary), `splitFirst` finds exactly
that occurrence. -/
theorem splitFirst_of_not_contains {pat : List Char} :
    ∀ {a : List Char} (b : List Char), containsB pat (a ++ pat.dropLast) = false →
      splitFirst pat (a ++ (pat ++ b)) = some (a, b) := by
  intro a
  induction a with
  | nil =>
    intro b h
    by_cases hpat : pat = []
    · subst hpat
      simp [containsB, List.isPrefixOf] at h
    · have hcons : pat.head hpat :: pat.tail = pat := List.head_cons_tail pat hpat
      have hne : pat ++ b = pat.head hpat :: (pat.tail ++ b) := by
        conv_lhs => rw [← hcons]
        rfl
      simp only [List.nil_append]
      rw [hne]
      simp only [splitFirst]
      have hp : pat.isPrefixOf (pat.head hpat :: (pat.tail ++ b)) = true := by
        rw [← hne]
        exact List.isPrefixOf_iff_prefix.mpr ⟨b, rfl⟩
      rw [if_pos (by simp [hp]), ← hne, List.drop_left]
  | cons c a' ih =>
    intro b h
    have hstep : (c :: a') ++ (pat ++ b) = c :: (a' ++ (pat ++ b)) := by simp
    rw [hstep]
    simp only [splitFirst]
    have hnp : pat.isPrefixOf (c :: (a' ++ (pat ++ b))) = false := by
      by_contra hc
      have : pat.isPrefixOf (c :: (a' ++ (pat ++ b))) = true := by
        revert hc; cases pat.isPrefixOf (c :: (a' ++ (pat ++ b))) <;> simp
      have := containsB_of_head_prefix this
      rw [show ((c :: a') ++ pat.dropLast) = c :: (a' ++ pat.dropLast) by simp] at this
      rw [show ((c :: a') ++ pat.dropLast) = c :: (a' ++ pat.dropLast) by simp] at h
      rw [this] at h
      exact absurd h (by simp)
    rw [if_neg (by simp [hnp])]
    have h' : containsB pat (a' ++ pat.dropLast) = false := by
      apply containsB_tail (c := c)
      rw [show c :: (a' ++ pat.dropLast) = ((c :: a') ++ pat.dropLast) by simp]
      exact h
    rw [ih b h']
    rfl

theorem containsB_single_of_not_mem {c : Char} {l : List Char} (h : c ∉ l) :
    containsB [c] l = false := by
  induction l with
  | nil => simp [containsB, List.isPrefixOf]
  | cons x xs ih =>
    have hx : c ≠ x := fun he => h (he ▸ List.mem_cons_self x xs)
    have hxs : c ∉ xs := fun hm => h (List.mem_cons_of_mem x hm)
    simp [containsB, List.isPrefixOf, ih hxs, beq_iff_eq]
    intro he
    exact hx he

theorem scanTagAfterDesc_length {endM nm : List Char} {d : Option (List Char)}
    {r : List Char} {fr : Fragment × List Char}
    (h : scanTagAfterDesc endM nm d r = some fr) : fr.2.length ≤ r.length := by
  simp only [scanTagAfterDesc] at h
  split at h
  · exact absurd h (by simp)
  · rename_i pr3 h3
    split at h
    · exact absurd h (by simp)
    · rename_i pr4 h4
      simp only [Option.some.injEq] at h
      have l3 := splitFirst_length h3
      have l4 := splitFirst_length h4
      rw [← h]
      show pr4.2.length ≤ r.length
      simp only [List.length_cons, List.length_nil] at l4
      omega

theorem scanTagDesc_length {endM nm r2 : List Char} {fr : Fragment × List Char}
    (h : scanTagDesc endM nm r2 = some fr) : fr.2.length ≤ r2.length := by
  simp only [scanTagDesc] at h
  split at h
  · split at h
    · rename_i pr hpr
      have l1 := splitFirst_length hpr
      have l2 := scanTagAfterDesc_length h
      have l3 : (r2.drop 2).length = r2.length - 2 := List.length_drop 2 r2
      simp only [List.length_cons, List.length_nil] at l1
      omega
    · exact scanTagAfterDesc_length h
  · exact scanTagAfterDesc_length h

theorem scanTagOne_length {begM endM s : List Char} {fr : Fragment × List Char}
    (hb : begM ≠ []) (h : scanTagOne begM endM s = some fr) : fr.2.length < s.length := by
  simp only [scanTagOne] at h
  split at h
  · exact absurd h (by simp)
  · rename_i pr1 h1
    split at h
    · exact absurd h (by simp)
    · rename_i pr2 h2
      have l1 := splitFirst_length h1
      have l2 := splitFirst_length h2
      have l3 := scanTagDesc_length h
      have hb1 : 1 ≤ begM.length := List.length_pos.mpr hb
      simp only [List.length_cons, List.length_nil] at l2
      omega

theorem scanTagsF_irrel {begM endM : List Char} (hb : begM ≠ []) :
    ∀ {n : Nat} {m : Nat} {s : List Char}, s.length < n → s.length < m →
      scanTagsF begM endM n s = scanTagsF begM endM m s := by
  intro n
  induction n with
  | zero => intro m s hn; omega
  | succ n ih =>
    intro m s hn hm
    cases m with
    | zero => omega
    | succ m =>
      simp only [scanTagsF]
      rcases h1 : scanTagOne begM endM s with _ | fr
      · rfl
      · have hlt := scanTagOne_length hb h1
        show fr.1 :: scanTagsF begM endM n fr.2 = fr.1 :: scanTagsF begM endM m fr.2
        exact congrArg (fr.1 :: ·) (ih (m := m) (by omega) (by omega))

theorem scanTagsF_succ (begM endM : List Char) (fuel : Nat) (s : List Char) :
    scanTagsF begM endM (fuel + 1) s =
      match scanTagOne begM endM s with
      | none => []
      | some fr => fr.1 :: scanTagsF begM endM fuel fr.2 := rfl

theorem scanActive_cons {s : List Char} {f : Fragment} {rest : List Char}
    (h : scanTagOne activeBegin activeEnd s = some (f, rest)) :
    scanActive s = f :: scanActive rest := by
  have hb : activeBegin ≠ [] := by decide
  have hlt := scanTagOne_length hb h
  show scanTagsF activeBegin activeEnd (s.length + 1) s = f :: scanActive rest
  rw [scanTagsF_succ, h]
  show f :: scanTagsF activeBegin activeEnd s.length rest
      = f :: scanTagsF activeBegin activeEnd (rest.length + 1) rest
  exact congrArg (f :: ·)
    (scanTagsF_irrel hb (m := rest.length + 1) (by simpa using hlt) (by omega))

/-- Characterization of one leftmost tag match on a decomposed text. -/
theorem scanTagOne_decomp (begM endM : List Char) {pre nm body e post : List Char}
    {d : Option (List Char)}
    (h1 : containsB begM (pre ++ begM.dropLast) = false)
    (h2 : rbrace ∉ nm)
    (h3 : descOk d (body ++ endM ++ e ++ rbrace :: post))
    (h4 : containsB endM (body ++ endM.dropLast) = false)
    (h5 : rbrace ∉ e) :
    scanTagOne begM endM
        (pre ++ begM ++ nm ++ rbrace :: descSeg d ++ body ++ endM ++ e ++ rbrace :: post) =
      some ({ tagBegin := nm.asString, comment := d.map List.asString,
              body := body.asString, tagEnd := e.asString }, post) := by
  have e5 : splitFirst [rbrace] (e ++ rbrace :: post) = some (e, post) := by
    have := @splitFirst_of_not_contains [rbrace] e post
      (by simpa using containsB_single_of_not_mem h5)
    simpa using this
  have e4 : splitFirst endM (body ++ (endM ++ (e ++ rbrace :: post))) =
      some (body, e ++ rbrace :: post) := splitFirst_of_not_contains _ h4
  have eAfter : scanTagAfterDesc endM nm d (body ++ endM ++ e ++ rbrace :: post) =
      some ({ tagBegin := nm.asString, comment := d.map List.asString,
              body := body.asString, tagEnd := e.asString }, post) := by
    simp only [scanTagAfterDesc]
    rw [show body ++ endM ++ e ++ rbrace :: post = body ++ (endM ++ (e ++ rbrace :: post)) by
      simp, e4]
    simp only
    rw [e5]
  have eDesc : scanTagDesc endM nm (descSeg d ++ body ++ endM ++ e ++ rbrace :: post) =
      some ({ tagBegin := nm.asString, comment := d.map List.asString,
              body := body.asString, tagEnd := e.asString }, post) := by
    rcases d with _ | d
    · simp only [descSeg, List.nil_append, scanTagDesc]
      rw [if_neg]
      · exact eAfter
      · simp only [descOk] at h3
        intro hc
        rw [h3] at hc
        exact absurd hc (by simp)
    · simp only [descOk] at h3
      simp only [descSeg, scanTagDesc]
      have hpre : ['$', lbrace].isPrefixOf
          (('$' :: lbrace :: (d ++ [rbrace])) ++ body ++ endM ++ e ++ rbrace :: post) = true := by
        simp [List.isPrefixOf]
      rw [if_pos (by simp [hpre])]
      have hdrop : ((('$' :: lbrace :: (d ++ [rbrace])) ++ body ++ endM ++ e ++ rbrace :: post).drop 2)
          = d ++ ([rbrace] ++ (body ++ endM ++ e ++ rbrace :: post)) := by
        simp
      rw [show (('$' :: lbrace :: (d ++ [rbrace])) ++ body ++ endM ++ e ++ rbrace :: post) =
        '$' :: lbrace :: ((d ++ [rbrace]) ++ body ++ endM ++ e ++ rbrace :: post) by simp]
      have hsp : splitFirst [rbrace] (d ++ ([rbrace] ++ (body ++ endM ++ e ++ rbrace :: post))) =
          some (d, body ++ endM ++ e ++ rbrace :: post) := by
        have := @splitFirst_of_not_contains [rbrace] d
          (body ++ endM ++ e ++ rbrace :: post)
          (by simpa using containsB_single_of_not_mem h3)
        simpa using this
      rw [show ('$' :: lbrace :: ((d ++ [rbrace]) ++ body ++ endM ++ e ++ rbrace :: post)).drop 2 =
        d ++ ([rbrace] ++ (body ++ endM ++ e ++ rbrace :: post)) by simp]
      rw [hsp]
      exact eAfter
  have e2 : splitFirst [rbrace]
      (nm ++ ([rbrace] ++ (descSeg d ++ body ++ endM ++ e ++ rbrace :: post))) =
      some (nm, descSeg d ++ body ++ endM ++ e ++ rbrace :: post) := by
    have := @splitFirst_of_not_contains [rbrace] nm
      (descSeg d ++ body ++ endM ++ e ++ rbrace :: post)
      (by simpa using containsB_single_of_not_mem h2)
    simpa using this
  have e1 : splitFirst begM
      (pre ++ (begM ++ (nm ++ rbrace :: descSeg d ++ body ++ endM ++ e ++ rbrace :: post))) =
      some (pre, nm ++ rbrace :: descSeg d ++ body ++ endM ++ e ++ rbrace :: post) :=
    splitFirst_of_not_contains _ h1
  simp only [scanTagOne]
  rw [show pre ++ begM ++ nm ++ rbrace :: descSeg d ++ body ++ endM ++ e ++ rbrace :: post =
    pre ++ (begM ++ (nm ++ rbrace :: descSeg d ++ body ++ endM ++ e ++ rbrace :: post)) by simp]
  rw [e1]
  simp only
  rw [show nm ++ rbrace :: descSeg d ++ body ++ endM ++ e ++ rbrace :: post =
    nm ++ ([rbrace] ++ (descSeg d ++ body ++ endM ++ e ++ rbrace :: post)) by simp]
  rw [e2]
  simp only
  exact eDesc

theorem Snippet.new_ok {tagBegin content source_file tagEnd comment : Option String}
    {active source latex extracted : Bool} {s : Snippet}
    (h : Snippet.new tagBegin content source_file tagEnd comment active source latex extracted
      = .ok s) :
    ∃ b, tagBegin = some b ∧ tagEnd = some b ∧
      s = { name := b, content := content, source_file := source_file, comment := comment,
            active := active, source := source, latex := latex, extracted := extracted } := by
  rcases tagBegin with _ | b
  · simp [Snippet.new] at h
  · rcases tagEnd with _ | e
    · simp [Snippet.new] at h
    · simp only [Snippet.new] at h
      split at h
      · rename_i he
        subst he
        simp only [Except.ok.injEq] at h
        exact ⟨b, rfl, rfl, h.symm⟩
      · simp at h

theorem Snippet.new_same {content source_file comment : Option String} {b : String}
    {active source latex extracted : Bool} :
    Snippet.new (some b) content source_file (some b) comment active source latex extracted
      = .ok { name := b, content := content, source_file := source_file, comment := comment,
              active := active, source := source, latex := latex, extracted := extracted } := by
  simp [Snippet.new]

theorem Snippet.new_mismatch {content source_file comment : Option String} {b e : String}
    {active source latex extracted : Bool} (h : b ≠ e) :
    Snippet.new (some b) content source_file (some e) comment active source latex extracted
      = .error (mismatchMsg b e) := by
  simp [Snippet.new, h]

theorem lookup_insert_self (k : String) (v : Snippet) (m : AL) :
    lookupAL k (insertAL k v m) = some v := by
  induction m with
  | nil => simp [lookupAL, insertAL]
  | cons p rest ih =>
    by_cases hp : p.1 = k
    · simp [insertAL, lookupAL, hp]
    · simp [insertAL, lookupAL, hp, ih]

theorem lookup_insert_ne {k k' : String} (v : Snippet) (m : AL) (h : k' ≠ k) :
    lookupAL k' (insertAL k v m) = lookupAL k' m := by
  induction m with
  | nil => simp [lookupAL, insertAL, Ne.symm h]
  | cons p rest ih =>
    by_cases hp : p.1 = k
    · have h1 : ¬ (k = k') := Ne.symm h
      have h2 : ¬ (p.1 = k') := by rw [hp]; exact h1
      simp [insertAL, lookupAL, hp, h1, h2]
    · by_cases hp' : p.1 = k'
      · simp [insertAL, lookupAL, hp, hp', h]
      · simp [insertAL, lookupAL, hp, hp', ih]

theorem lookup_modify_self (k : String) (g : Snippet → Snippet) (m : AL) :
    lookupAL k (modifyAL k g m) = (lookupAL k m).map g := by
  induction m with
  | nil => simp [lookupAL, modifyAL]
  | cons p rest ih =>
    by_cases hp : p.1 = k
    · simp [modifyAL, lookupAL, hp]
    · simp [modifyAL, lookupAL, hp, ih]

theorem lookup_modify_ne {k k' : String} (g : Snippet → Snippet) (m : AL) (h : k' ≠ k) :
    lookupAL k' (modifyAL k g m) = lookupAL k' m := by
  induction m with
  | nil => simp [modifyAL]
  | cons p rest ih =>
    by_cases hp : p.1 = k
    · have h2 : ¬ (p.1 = k') := by rw [hp]; exact Ne.symm h
      simp [modifyAL, lookupAL, hp, h2, Ne.symm h]
    · by_cases hp' : p.1 = k'
      · simp [modifyAL, lookupAL, hp, hp', h]
      · simp [modifyAL, lookupAL, hp, hp', ih]

theorem lookup_upsert_self (k : String) (v : Snippet) (g : Snippet → Snippet) (m : AL) :
    lookupAL k (upsertAL k v g m) = some (g ((lookupAL k m).getD v)) := by
  unfold upsertAL
  rcases hl : lookupAL k m with _ | x
  · rw [if_neg (by simp [hl]), lookup_modify_self, lookup_insert_self]
    rfl
  · rw [if_pos (by simp [hl]), lookup_modify_self, hl]
    rfl

theorem lookup_upsert_ne {k k' : String} (v : Snippet) (g : Snippet → Snippet) (m : AL)
    (h : k' ≠ k) : lookupAL k' (upsertAL k v g m) = lookupAL k' m := by
  unfold upsertAL
  by_cases hv : (lookupAL k m).isSome = true
  · rw [if_pos hv, lookup_modify_ne _ _ h]
  · rw [if_neg hv, lookup_modify_ne _ _ h, lookup_insert_ne _ _ h]

theorem mem_insertAL {p : String × Snippet} {k : String} {v : Snippet} {m : AL}
    (h : p ∈ insertAL k v m) : p = (k, v) ∨ p ∈ m := by
  induction m with
  | nil => simpa [insertAL] using h
  | cons q rest ih =>
    by_cases hq : q.1 = k
    · simp only [insertAL, if_pos hq, List.mem_cons] at h
      rcases h with h | h
      · exact Or.inl h
      · exact Or.inr (List.mem_cons_of_mem q h)
    · simp only [insertAL, if_neg hq, List.mem_cons] at h
      rcases h with h | h
      · exact Or.inr (by simp [h])
      · rcases ih h with h' | h'
        · exact Or.inl h'
        · exact Or.inr (List.mem_cons_of_mem q h')

theorem mem_modifyAL {p : String × Snippet} {k : String} {g : Snippet → Snippet} {m : AL}
    (h : p ∈ modifyAL k g m) : p ∈ m ∨ ∃ q ∈ m, p = (q.1, g q.2) := by
  induction m with
  | nil => simpa [modifyAL] using h
  | cons q rest ih =>
    by_cases hq : q.1 = k
    · simp only [modifyAL, if_pos hq, List.mem_cons] at h
      rcases h with h | h
      · exact Or.inr ⟨q, List.mem_cons_self q rest, h⟩
      · exact Or.inl (List.mem_cons_of_mem q h)
    · simp only [modifyAL, if_neg hq, List.mem_cons] at h
      rcases h with h | h
      · exact Or.inl (by simp [h])
      · rcases ih h with h' | ⟨r, hr, he⟩
        · exact Or.inl (List.mem_cons_of_mem q h')
        · exact Or.inr ⟨r, List.mem_cons_of_mem q hr, he⟩

theorem mem_upsertAL {p : String × Snippet} {k : String} {v : Snippet} {g : Snippet → Snippet}
    {m : AL} (h : p ∈ upsertAL k v g m) :
    p ∈ m ∨ p = (k, v) ∨ p = (k, g v) ∨ ∃ q ∈ m, p = (q.1, g q.2) := by
  unfold upsertAL at h
  split at h
  · rcases mem_modifyAL h with h' | ⟨q, hq, he⟩
    · exact Or.inl h'
    · exact Or.inr (Or.inr (Or.inr ⟨q, hq, he⟩))
  · rcases mem_modifyAL h with h' | ⟨q, hq, he⟩
    · rcases mem_insertAL h' with h'' | h''
      · exact Or.inr (Or.inl h'')
      · exact Or.inl h''
    · rcases mem_insertAL hq with h'' | h''
      · exact Or.inr (Or.inr (Or.inl (by rw [he, h''])))
      · exact Or.inr (Or.inr (Or.inr ⟨q, h'', he⟩))

theorem passActive_fst (m : AL) (errs : List String) (l : List (String × Fragment)) :
    (passActive (m, errs) l).1 = passActiveM m l := by
  induction l generalizing m errs with
  | nil => rfl
  | cons pf rest ih =>
    show (passActive (stepActive (m, errs) pf) rest).1 = passActiveM (stepActiveM m pf) rest
    rcases hmk : mkTagSnippet pf.1 pf.2 true with e | s
    · simp only [stepActive, stepActiveM, hmk]
      exact ih m (errs ++ [e])
    · simp only [stepActive, stepActiveM, hmk]
      exact ih (insertAL s.name s m) errs

/-- C1: the claim states that an active, source-found snippet's target file
is opened with truncation so the resulting contents equal exactly the
snippet's content.  The code opens with `write(true).create(true)` and no
`truncate`, so `write_all` overwrites only the first `content.len()` bytes:
with pre-existing contents `OLDOLDOLD` and snippet content `NEW`, the file
ends up `NEWOLDOLD`, not `NEW`.  The spec describes the evident intent
(re-extraction refreshes the snippet); the missing truncation is a code
bug. -/
theorem c1_active_overwrite_not_truncated :
    (extractOne "t" fsC1 snipC1).1 (targetPath "t" "a") = some ("NEWOLDOLD".toList) ∧
    (extractOne "t" fsC1 snipC1).2 = ExtEvent.extracted "a" ∧
    "NEWOLDOLD".toList ≠ "NEW".toList := by
  decide

/-- C2 counterexample: two active-tag sightings of the name `n`, the first
with content `A` from `f1.cpp`, the second with content `B` from `f2.cpp`.
The claim says the record keeps content `A` and source file `f1.cpp`
(first-writer-wins); the code's `HashMap::insert` replaces the record, so
the final content is `B` from `f2.cpp`. -/
theorem c2_counterexample :
    (lookupAL "n" (passActiveM [] [("f1.cpp", fragA), ("f2.cpp", fragB)])).map
        (fun s => (s.content, s.source_file))
      = some (some "B", some "f2.cpp") ∧
    some ((some "B" : Option String), (some "f2.cpp" : Option String))
      ≠ some ((some "A" : Option String), (some "f1.cpp" : Option String)) := by
  decide

/-- C4 counterexample: one active sighting and one inclusion sighting of
the name `n`, no inactive sighting.  In main's order the record ends with
flags (active, source, latex, extracted) = (T, T, T, F); running the
inclusion pass first, the active pass's `insert` replaces the record and
drops the latex flag, giving (T, T, F, F).  The final flag set therefore
depends on the scanner order even though no inactive sighting exists. -/
theorem c4_counterexample :
    (lookupAL "n" (runOrder inpC4 [.act, .inact, .incls, .stems])).map flagsOf
      = some (true, true, true, false) ∧
    (lookupAL "n" (runOrder inpC4 [.incls, .act, .inact, .stems])).map flagsOf
      = some (true, true, false, false) ∧
    inpC4.inact = [] ∧
    (lookupAL "n" (runOrder inpC4 [.act, .inact, .incls, .stems])).map flagsOf
      ≠ (lookupAL "n" (runOrder inpC4 [.incls, .act, .inact, .stems])).map flagsOf := by
  decide

/-- C5 counterexample: scanning the file `a.cpp` whose text holds one
region `BEGIN\x7bbar\x7d … END\x7bbaz\x7d` reports exactly the mismatch
error of Snippet::new, and that error text does not contain the file path
`a.cpp` — the claim's "carrying both names and the file path" fails on the
path part. -/
theorem c5_counterexample :
    passActive ([], []) (sourceFrags scanActive [("a.cpp", c5text)])
      = ([], [mismatchMsg "bar" "baz"]) ∧
    containsB ("a.cpp".toList) ((mismatchMsg "bar" "baz").toList) = false := by
  decide

/-- C8: the inclusion pattern is
`\\lstinputlisting.*?\x7b.*/(?P<SNIPPET_NAME>.*?)\.cpp.*?\x7d`, whose `/` is
mandatory.  A directive naming a bare file `foo.cpp` — exactly the shape of
the example in the source's own comment — yields no inclusion at all, while
a path-qualified directive yields the stem `foo`.  The claim (every
inclusion directive has its file stem extracted) is right and the pattern
is a code bug. -/
theorem c8_include_requires_slash :
    scanInclude ("\\lstinputlisting\x7bfoo.cpp\x7d".toList) = [] ∧
    scanInclude ("\\lstinputlisting\x7bsnippets/foo.cpp\x7d".toList) = ["foo"] := by
  decide

/-- C2 amended: processing an active-tag fragment replaces the whole
record under its name — content and source_file come from the latest
active sighting (last-writer-wins), and the new record has
foundInSource=true — regardless of what the mapping held before. -/
theorem c2_active_last_writer_wins (p : String) (m : AL) (f : Fragment)
    (h : f.tagBegin = f.tagEnd) :
    lookupAL f.tagBegin (stepActiveM m (p, f))
      = some { name := f.tagBegin, content := some f.body, source_file := some p,
               comment := f.comment, active := true, source := true,
               latex := false, extracted := false } := by
  have hmk : mkTagSnippet p f true
      = .ok { name := f.tagBegin, content := some f.body, source_file := some p,
              comment := f.comment, active := true, source := true,
              latex := false, extracted := false } := by
    simp only [mkTagSnippet, ← h]
    exact Snippet.new_same
  simp only [stepActiveM, hmk]
  exact lookup_insert_self _ _ _

/-- Witness for c2_active_last_writer_wins: the mapping already holds a
record for `n` with content `A`; the later sighting with content `B` from
`f2.cpp` replaces it. -/
theorem c2_active_last_writer_wins_witness :
    lookupAL "n" (stepActiveM
        [("n", { name := "n", content := some "A", source_file := some "f1.cpp",
                 comment := none, active := true, source := true,
                 latex := false, extracted := false })] ("f2.cpp", fragB))
      = some { name := "n", content := some "B", source_file := some "f2.cpp",
               comment := none, active := true, source := true,
               latex := false, extracted := false } :=
  c2_active_last_writer_wins "f2.cpp"
    [("n", { name := "n", content := some "A", source_file := some "f1.cpp",
             comment := none, active := true, source := true,
             latex := false, extracted := false })] fragB rfl

/-- C7: a well-formed active tagged region with matching begin and end
names (optional description allowed), under the side conditions that make
the lazy pattern read it plainly, is scanned into a fragment whose body is
the exact text between the tags, and the pass builds from it a Snippet
with active=true, foundInSource=true, the scanned file as source_file and
the exact body as content.  Scanning then continues after the region. -/
theorem c7_active_region (p : String) {pre nm body post : List Char} {d : Option (List Char)}
    (h1 : containsB activeBegin (pre ++ activeBegin.dropLast) = false)
    (h2 : rbrace ∉ nm)
    (h3 : descOk d (body ++ activeEnd ++ nm ++ rbrace :: post))
    (h4 : containsB activeEnd (body ++ activeEnd.dropLast) = false) :
    scanActive
        (pre ++ activeBegin ++ nm ++ rbrace :: descSeg d ++ body ++ activeEnd ++ nm ++ rbrace :: post)
      = { tagBegin := nm.asString, comment := d.map List.asString,
          body := body.asString, tagEnd := nm.asString } :: scanActive post ∧
    mkTagSnippet p
        { tagBegin := nm.asString, comment := d.map List.asString,
          body := body.asString, tagEnd := nm.asString } true
      = Except.ok { name := nm.asString, content := some body.asString, source_file := some p,
                    comment := d.map List.asString, active := true, source := true,
                    latex := false, extracted := false } := by
  have hdec := scanTagOne_decomp activeBegin activeEnd (e := nm) h1 h2 h3 h4 h2
  exact ⟨scanActive_cons hdec, by simp [mkTagSnippet, Snippet.new]⟩

/-- Witness for c7_active_region on the concrete file text
`int x;\n// SNIPPET:BEGIN \x7bfoo\x7d$\x7bnote\x7dy++;\n// SNIPPET:END \x7bfoo\x7dZ`. -/
theorem c7_active_region_witness :
    scanActive
        ("int x;\n".toList ++ activeBegin ++ "foo".toList ++ rbrace ::
          descSeg (some "note".toList) ++ "y++;\n".toList ++ activeEnd ++ "foo".toList ++
          rbrace :: "Z".toList)
      = { tagBegin := "foo", comment := some "note",
          body := "y++;\n", tagEnd := "foo" } :: scanActive ("Z".toList) ∧
    mkTagSnippet "src/a.cpp"
        { tagBegin := "foo", comment := some "note", body := "y++;\n", tagEnd := "foo" } true
      = Except.ok { name := "foo", content := some "y++;\n", source_file := some "src/a.cpp",
                    comment := some "note", active := true, source := true,
                    latex := false, extracted := false } :=
  c7_active_region "src/a.cpp" (by decide) (by decide)
    (by show rbrace ∉ "note".toList
        decide)
    (by decide)

/-- C5 amended: a tagged region whose begin and end names differ produces
no record (the mapping is untouched), a mismatch error carrying both names
— but not the file path — is reported, and scanning continues with the
regions after it. -/
theorem c5_mismatch_reported_scan_continues (p : String) (m : AL) (errs : List String)
    {pre nm body e post : List Char} {d : Option (List Char)}
    (h1 : containsB activeBegin (pre ++ activeBegin.dropLast) = false)
    (h2 : rbrace ∉ nm)
    (h3 : descOk d (body ++ activeEnd ++ e ++ rbrace :: post))
    (h4 : containsB activeEnd (body ++ activeEnd.dropLast) = false)
    (h5 : rbrace ∉ e)
    (hne : nm ≠ e) :
    passActive (m, errs)
        ((scanActive
          (pre ++ activeBegin ++ nm ++ rbrace :: descSeg d ++ body ++ activeEnd ++ e ++ rbrace :: post)).map
          (fun f => (p, f)))
      = passActive (m, errs ++ [mismatchMsg nm.asString e.asString])
          ((scanActive post).map (fun f => (p, f))) := by
  have hdec := scanTagOne_decomp activeBegin activeEnd h1 h2 h3 h4 h5
  rw [scanActive_cons hdec]
  simp only [List.map_cons]
  have hne' : nm.asString ≠ e.asString := fun hh => hne (List.asString_inj.mp hh)
  have hstep : stepActive (m, errs)
      (p, { tagBegin := nm.asString, comment := d.map List.asString,
            body := body.asString, tagEnd := e.asString })
      = (m, errs ++ [mismatchMsg nm.asString e.asString]) := by
    simp [stepActive, mkTagSnippet, Snippet.new, hne']
  show passActive (stepActive (m, errs) _) _ = _
  rw [hstep]

/-- Witness for c5_mismatch_reported_scan_continues at a concrete text in
file `a.cpp` with names `bar` and `baz`. -/
theorem c5_mismatch_reported_scan_continues_witness :
    passActive ([], [])
        ((scanActive
          ("x".toList ++ activeBegin ++ "bar".toList ++ rbrace :: descSeg none ++
            " X".toList ++ activeEnd ++ "baz".toList ++ rbrace :: "tail".toList)).map
          (fun f => ("a.cpp", f)))
      = passActive ([], [] ++ [mismatchMsg "bar" "baz"])
          ((scanActive ("tail".toList)).map (fun f => ("a.cpp", f))) :=
  c5_mismatch_reported_scan_continues "a.cpp" [] []
    (by decide) (by decide)
    (by show ['$', lbrace].isPrefixOf
          (" X".toList ++ activeEnd ++ "baz".toList ++ rbrace :: "tail".toList) = false
        decide)
    (by decide) (by decide) (by decide)

/-- C6: an inactive, source-found snippet whose target file already exists
is opened create-only: the open fails, the failure is reported as the
snippet's per-item outcome, the pre-existing file (indeed the whole
filesystem) is untouched, and the remaining snippets are processed exactly
as they would have been. -/
theorem c6_inactive_create_only (dir : String) (fs : FS) (s : Snippet) (rest : List Snippet)
    (old : List Char) (h1 : s.source = true) (h2 : s.active = false)
    (h3 : fs (targetPath dir s.name) = some old) :
    extractOne dir fs s = (fs, ExtEvent.notWritten s.name) ∧
    extractAll dir fs (s :: rest)
      = ((extractAll dir fs rest).1,
         ExtEvent.notWritten s.name :: (extractAll dir fs rest).2) := by
  have hone : extractOne dir fs s = (fs, ExtEvent.notWritten s.name) := by
    simp [extractOne, h1, h2, h3]
  exact ⟨hone, by simp [extractAll, hone]⟩

/-- Witness for c6_inactive_create_only: inactive snippet `q` with an
existing target file `t/q.cpp`; the sibling active snippet `r` is still
extracted. -/
theorem c6_inactive_create_only_witness :
    extractOne "t" (fun pa => if pa = targetPath "t" "q" then some ("K".toList) else none)
        { name := "q", content := some "Q2", source_file := some "s.cpp", comment := none,
          active := false, source := true, latex := false, extracted := false }
      = ((fun pa => if pa = targetPath "t" "q" then some ("K".toList) else none),
         ExtEvent.notWritten "q") ∧
    extractAll "t" (fun pa => if pa = targetPath "t" "q" then some ("K".toList) else none)
        [{ name := "q", content := some "Q2", source_file := some "s.cpp", comment := none,
           active := false, source := true, latex := false, extracted := false },
         { name := "r", content := some "R", source_file := some "s.cpp", comment := none,
           active := true, source := true, latex := false, extracted := false }]
      = ((extractAll "t" (fun pa => if pa = targetPath "t" "q" then some ("K".toList) else none)
            [{ name := "r", content := some "R", source_file := some "s.cpp", comment := none,
               active := true, source := true, latex := false, extracted := false }]).1,
         ExtEvent.notWritten "q" ::
          (extractAll "t" (fun pa => if pa = targetPath "t" "q" then some ("K".toList) else none)
            [{ name := "r", content := some "R", source_file := some "s.cpp", comment := none,
               active := true, source := true, latex := false, extracted := false }]).2) :=
  c6_inactive_create_only "t"
    (fun pa => if pa = targetPath "t" "q" then some ("K".toList) else none)
    { name := "q", content := some "Q2", source_file := some "s.cpp", comment := none,
      active := false, source := true, latex := false, extracted := false }
    [{ name := "r", content := some "R", source_file := some "s.cpp", comment := none,
       active := true, source := true, latex := false, extracted := false }]
    ("K".toList) rfl rfl (by decide)

/- ## Generic fold-preservation and per-step facts used by the invariant claims -/

theorem foldl_preserve {α β : Type} {P : α → Prop} {step : α → β → α}
    (h : ∀ a b, P a → P (step a b)) :
    ∀ (l : List β) (a : α), P a → P (List.foldl step a l) := by
  intro l
  induction l with
  | nil => intro a ha; exact ha
  | cons x xs ih => intro a ha; exact ih _ (h a x ha)

theorem mkTagSnippet_ok_fields {p : String} {f : Fragment} {a : Bool} {t : Snippet}
    (h : mkTagSnippet p f a = .ok t) :
    t.name = f.tagBegin ∧ t.content = some f.body ∧ t.source_file = some p ∧
    t.comment = f.comment ∧ t.active = a ∧ t.source = true ∧
    t.latex = false ∧ t.extracted = false := by
  obtain ⟨b, hb, _, ht⟩ := Snippet.new_ok (by simpa [mkTagSnippet] using h)
  have hb' : f.tagBegin = b := by injection hb
  subst ht
  simp [hb']

theorem mkTagSnippet_same (p : String) (f : Fragment) (a : Bool) (h : f.tagBegin = f.tagEnd) :
    mkTagSnippet p f a
      = .ok { name := f.tagBegin, content := some f.body, source_file := some p,
              comment := f.comment, active := a, source := true,
              latex := false, extracted := false } := by
  simp only [mkTagSnippet, ← h]
  exact Snippet.new_same

theorem stepInclM_eq (m : AL) (n : String) :
    stepInclM m n = upsertAL n (inclDefault n) (fun t => { t with latex := true }) m := by
  simp [stepInclM, Snippet.new, inclDefault]

theorem stepStemM_eq (m : AL) (n : String) :
    stepStemM m n = upsertAL n (stemDefault n) (fun t => { t with extracted := true }) m := by
  simp [stepStemM, Snippet.new, stemDefault]

theorem srcInv_stepActiveM {m : AL} (pf : String × Fragment) (h : SrcInv m) :
    SrcInv (stepActiveM m pf) := by
  intro k s hl
  unfold stepActiveM at hl
  rcases hmk : mkTagSnippet pf.1 pf.2 true with e | t
  · rw [hmk] at hl; exact h k s hl
  · rw [hmk] at hl
    have hsrc := (mkTagSnippet_ok_fields hmk).2.2.2.2.2.1
    by_cases hk : k = t.name
    · subst hk
      rw [lookup_insert_self] at hl
      injection hl with hl
      rw [← hl]
      exact hsrc
    · rw [lookup_insert_ne _ _ hk] at hl
      exact h k s hl

theorem srcInv_stepInactiveM {m : AL} (pf : String × Fragment) (h : SrcInv m) :
    SrcInv (stepInactiveM m pf) := by
  intro k s hl
  unfold stepInactiveM at hl
  rcases hmk : mkTagSnippet pf.1 pf.2 false with e | t
  · rw [hmk] at hl; exact h k s hl
  · rw [hmk] at hl
    have hsrc := (mkTagSnippet_ok_fields hmk).2.2.2.2.2.1
    by_cases hk : k = t.name
    · subst hk
      rw [lookup_upsert_self] at hl
      injection hl with hl
      rcases hbase : lookupAL t.name m with _ | x
      · rw [hbase] at hl
        rw [← hl]
        exact hsrc
      · rw [hbase] at hl
        rw [← hl]
        exact h t.name x hbase
    · rw [lookup_upsert_ne _ _ _ hk] at hl
      exact h k s hl

theorem pact_stepInactiveM {n : String} {m : AL} (pf : String × Fragment)
    (h : PActFalse n m) : PActFalse n (stepInactiveM m pf) := by
  obtain ⟨s, hs, ha, hsrc⟩ := h
  unfold stepInactiveM
  rcases hmk : mkTagSnippet pf.1 pf.2 false with e | t
  · exact ⟨s, hs, ha, hsrc⟩
  · by_cases hk : n = t.name
    · subst hk
      refine ⟨_, lookup_upsert_self _ _ _ _, ?_, ?_⟩
      · rfl
      · rw [hs]
        exact hsrc
    · refine ⟨s, ?_, ha, hsrc⟩
      show lookupAL n (upsertAL t.name t (fun t => { t with active := false }) m) = some s
      rw [lookup_upsert_ne _ _ _ hk]
      exact hs

theorem pact_stepInclM {n : String} {m : AL} (x : String) (h : PActFalse n m) :
    PActFalse n (stepInclM m x) := by
  obtain ⟨s, hs, ha, hsrc⟩ := h
  rw [stepInclM_eq]
  by_cases hk : n = x
  · subst hk
    refine ⟨_, lookup_upsert_self _ _ _ _, ?_, ?_⟩
    · rw [hs]; exact ha
    · rw [hs]; exact hsrc
  · refine ⟨s, ?_, ha, hsrc⟩
    show lookupAL n (upsertAL x (inclDefault x) (fun t => { t with latex := true }) m) = some s
    rw [lookup_upsert_ne _ _ _ hk]
    exact hs

theorem pact_stepStemM {n : String} {m : AL} (x : String) (h : PActFalse n m) :
    PActFalse n (stepStemM m x) := by
  obtain ⟨s, hs, ha, hsrc⟩ := h
  rw [stepStemM_eq]
  by_cases hk : n = x
  · subst hk
    refine ⟨_, lookup_upsert_self _ _ _ _, ?_, ?_⟩
    · rw [hs]; exact ha
    · rw [hs]; exact hsrc
  · refine ⟨s, ?_, ha, hsrc⟩
    show lookupAL n (upsertAL x (stemDefault x) (fun t => { t with extracted := true }) m) = some s
    rw [lookup_upsert_ne _ _ _ hk]
    exact hs

theorem pact_after_valid_inactive {n : String} {m : AL} {pf : String × Fragment}
    (hv : pf.2.tagBegin = n ∧ pf.2.tagEnd = n) (hsrc : SrcInv m) :
    PActFalse n (stepInactiveM m pf) := by
  have hmk := mkTagSnippet_same pf.1 pf.2 false (hv.1.trans hv.2.symm)
  unfold stepInactiveM
  rw [hmk]
  simp only
  rw [show pf.2.tagBegin = n from hv.1]
  refine ⟨_, lookup_upsert_self _ _ _ _, rfl, ?_⟩
  rcases hbase : lookupAL n m with _ | x
  · rfl
  · exact hsrc n x hbase

theorem passInactive_pact {n : String} :
    ∀ (I : List (String × Fragment)) (m : AL), SrcInv m →
      (∃ pf ∈ I, pf.2.tagBegin = n ∧ pf.2.tagEnd = n) →
      PActFalse n (passInactiveM m I) := by
  intro I
  induction I with
  | nil =>
    intro m _ h
    simp at h
  | cons pf rest ih =>
    intro m hsrc h
    rcases h with ⟨pf', hmem, hv⟩
    rcases List.mem_cons.mp hmem with he | hin
    · subst he
      have h0 : PActFalse n (stepInactiveM m pf') := pact_after_valid_inactive hv hsrc
      exact foldl_preserve (fun a b ha => pact_stepInactiveM b ha) rest _ h0
    · exact ih (stepInactiveM m pf) (srcInv_stepInactiveM pf hsrc) ⟨pf', hin, hv⟩

/-- C3: whenever the inactive-tag scan sights a well-formed region named
`n` (matching begin/end names), the reconciled mapping holds a record for
`n` with active=false and foundInSource=true — whatever the active-tag
sightings were, in whatever order, and whatever the inclusion and
materialized-file sightings add afterwards. -/
theorem c3_inactive_forces (A I : List (String × Fragment)) (incl stems : List String)
    (n : String) (h : ∃ pf ∈ I, pf.2.tagBegin = n ∧ pf.2.tagEnd = n) :
    ∃ s, lookupAL n (reconcileFrags A I incl stems) = some s ∧
      s.active = false ∧ s.source = true := by
  have h0 : SrcInv ([] : AL) := by
    intro k s hl
    simp [lookupAL] at hl
  have hA : SrcInv (passActiveM [] A) :=
    foldl_preserve (fun a b ha => srcInv_stepActiveM b ha) A [] h0
  have hI : PActFalse n (passInactiveM (passActiveM [] A) I) := passInactive_pact I _ hA h
  have hIncl : PActFalse n (passInclM (passInactiveM (passActiveM [] A) I) incl) :=
    foldl_preserve (fun a b ha => pact_stepInclM b ha) incl _ hI
  exact foldl_preserve (fun a b ha => pact_stepStemM b ha) stems _ hIncl

/-- Witness for c3_inactive_forces: name `q` sighted by an active region in
`f.cpp` and an inactive region in `g.cpp`, plus an inclusion and a
materialized file; the final record is inactive and source-found. -/
theorem c3_inactive_forces_witness :
    (lookupAL "q" (reconcileFrags
        [("f.cpp", { tagBegin := "q", comment := none, body := "A", tagEnd := "q" })]
        [("g.cpp", { tagBegin := "q", comment := none, body := "B", tagEnd := "q" })]
        ["q"] ["q"])).map (fun s => (s.active, s.source))
      = some (false, true) := by
  obtain ⟨s, hs, ha, hsrc⟩ := c3_inactive_forces
    [("f.cpp", { tagBegin := "q", comment := none, body := "A", tagEnd := "q" })]
    [("g.cpp", { tagBegin := "q", comment := none, body := "B", tagEnd := "q" })]
    ["q"] ["q"] "q" (by decide)
  rw [hs]
  simp [ha, hsrc]

/- ## C4 amended: the inclusion and materialized-file passes commute -/

theorem lookup_stepInclM (m : AL) (x k : String) :
    lookupAL k (stepInclM m x)
      = if k = x then some { (lookupAL k m).getD (inclDefault x) with latex := true }
        else lookupAL k m := by
  rw [stepInclM_eq]
  by_cases hk : k = x
  · subst hk
    rw [if_pos rfl]
    exact lookup_upsert_self _ _ _ _
  · rw [if_neg hk]
    exact lookup_upsert_ne _ _ _ hk

theorem lookup_stepStemM (m : AL) (x k : String) :
    lookupAL k (stepStemM m x)
      = if k = x then some { (lookupAL k m).getD (stemDefault x) with extracted := true }
        else lookupAL k m := by
  rw [stepStemM_eq]
  by_cases hk : k = x
  · subst hk
    rw [if_pos rfl]
    exact lookup_upsert_self _ _ _ _
  · rw [if_neg hk]
    exact lookup_upsert_ne _ _ _ hk

theorem lookup_passInclM (k : String) :
    ∀ (l : List String) (m : AL),
      lookupAL k (passInclM m l)
        = if k ∈ l then some { (lookupAL k m).getD (inclDefault k) with latex := true }
          else lookupAL k m := by
  intro l
  induction l with
  | nil => intro m; simp [passInclM]
  | cons c rest ih =>
    intro m
    show lookupAL k (passInclM (stepInclM m c) rest) = _
    rw [ih (stepInclM m c), lookup_stepInclM]
    by_cases hmem : k ∈ rest
    · rw [if_pos hmem, if_pos (List.mem_cons_of_mem c hmem)]
      by_cases hk : k = c
      · subst hk
        rw [if_pos rfl]
        rcases lookupAL k m with _ | v <;> rfl
      · rw [if_neg hk]
    · rw [if_neg hmem]
      by_cases hk : k = c
      · subst hk
        rw [if_pos rfl, if_pos (List.mem_cons_self k rest)]
      · rw [if_neg hk, if_neg (by simp [hk, hmem])]

theorem lookup_passStemM (k : String) :
    ∀ (l : List String) (m : AL),
      lookupAL k (passStemM m l)
        = if k ∈ l then some { (lookupAL k m).getD (stemDefault k) with extracted := true }
          else lookupAL k m := by
  intro l
  induction l with
  | nil => intro m; simp [passStemM]
  | cons c rest ih =>
    intro m
    show lookupAL k (passStemM (stepStemM m c) rest) = _
    rw [ih (stepStemM m c), lookup_stepStemM]
    by_cases hmem : k ∈ rest
    · rw [if_pos hmem, if_pos (List.mem_cons_of_mem c hmem)]
      by_cases hk : k = c
      · subst hk
        rw [if_pos rfl]
        rcases lookupAL k m with _ | v <;> rfl
      · rw [if_neg hk]
    · rw [if_neg hmem]
      by_cases hk : k = c
      · subst hk
        rw [if_pos rfl, if_pos (List.mem_cons_self k rest)]
      · rw [if_neg hk, if_neg (by simp [hk, hmem])]

/-- C4 amended: the part of the order-independence statement the code
satisfies.  The inclusion pass and the materialized-file pass commute on
every name: each uses insert-or-get plus a single flag update, so the
final record under any name is the same whichever of the two runs first.
The tag-scanner passes are the exception: c4_counterexample shows the
active pass's wholesale `insert` makes the final flags depend on its
position in the order even with no inactive sighting in play. -/
theorem c4_incl_stem_passes_commute (m : AL) (incl stems : List String) (k : String) :
    lookupAL k (passStemM (passInclM m incl) stems)
      = lookupAL k (passInclM (passStemM m stems) incl) := by
  rw [lookup_passStemM, lookup_passInclM, lookup_passInclM, lookup_passStemM]
  by_cases hi : k ∈ incl
  · by_cases hs : k ∈ stems
    · simp only [if_pos hi, if_pos hs, Option.getD_some]
      rcases lookupAL k m with _ | v
      · simp [inclDefault, stemDefault]
      · rfl
    · simp only [if_pos hi, if_neg hs]
  · by_cases hs : k ∈ stems
    · simp only [if_neg hi, if_pos hs]
    · simp only [if_neg hi, if_neg hs]

theorem mem_keys_insertAL {x k : String} {v : Snippet} {m : AL}
    (h : x ∈ keysAL (insertAL k v m)) : x = k ∨ x ∈ keysAL m := by
  unfold keysAL at h
  obtain ⟨p, hp, he⟩ := List.mem_map.mp h
  rcases mem_insertAL hp with h' | h'
  · subst h'
    exact Or.inl (by rw [← he])
  · exact Or.inr (List.mem_map.mpr ⟨p, h', he⟩)

theorem keys_modifyAL (k : String) (g : Snippet → Snippet) (m : AL) :
    keysAL (modifyAL k g m) = keysAL m := by
  induction m with
  | nil => rfl
  | cons p rest ih =>
    by_cases hp : p.1 = k
    · simp [modifyAL, keysAL, hp]
    · simp only [modifyAL, if_neg hp]
      simp only [keysAL, List.map_cons] at ih ⊢
      rw [ih]

theorem nodup_keys_insertAL {k : String} {v : Snippet} {m : AL}
    (h : (keysAL m).Nodup) : (keysAL (insertAL k v m)).Nodup := by
  induction m with
  | nil => simp [insertAL, keysAL]
  | cons p rest ih =>
    simp only [keysAL, List.map_cons, List.nodup_cons] at h
    by_cases hp : p.1 = k
    · simp only [insertAL, if_pos hp, keysAL, List.map_cons, List.nodup_cons]
      exact ⟨hp ▸ h.1, h.2⟩
    · simp only [insertAL, if_neg hp, keysAL, List.map_cons, List.nodup_cons]
      refine ⟨?_, ih h.2⟩
      intro hmem
      rcases mem_keys_insertAL hmem with h' | h'
      · exact hp h'
      · exact h.1 h'

theorem good_insertAL {m : AL} {k : String} {v : Snippet} (hv : v.name = k)
    (h : GoodAL m) : GoodAL (insertAL k v m) := by
  refine ⟨nodup_keys_insertAL h.1, ?_⟩
  intro p hp
  rcases mem_insertAL hp with h' | h'
  · subst h'
    exact hv
  · exact h.2 p h'

theorem good_modifyAL {m : AL} {k : String} {g : Snippet → Snippet}
    (hg : ∀ t, (g t).name = t.name) (h : GoodAL m) : GoodAL (modifyAL k g m) := by
  refine ⟨by rw [keys_modifyAL]; exact h.1, ?_⟩
  intro p hp
  rcases mem_modifyAL hp with h' | ⟨q, hq, he⟩
  · exact h.2 p h'
  · subst he
    show (g q.2).name = q.1
    rw [hg q.2]
    exact h.2 q hq

theorem good_upsertAL {m : AL} {k : String} {v : Snippet} {g : Snippet → Snippet}
    (hv : v.name = k) (hg : ∀ t, (g t).name = t.name) (h : GoodAL m) :
    GoodAL (upsertAL k v g m) := by
  unfold upsertAL
  split
  · exact good_modifyAL hg h
  · exact good_modifyAL hg (good_insertAL hv h)

theorem good_stepActiveM {m : AL} (pf : String × Fragment) (h : GoodAL m) :
    GoodAL (stepActiveM m pf) := by
  unfold stepActiveM
  rcases hmk : mkTagSnippet pf.1 pf.2 true with e | t
  · exact h
  · exact good_insertAL rfl h

theorem good_stepInactiveM {m : AL} (pf : String × Fragment) (h : GoodAL m) :
    GoodAL (stepInactiveM m pf) := by
  unfold stepInactiveM
  rcases hmk : mkTagSnippet pf.1 pf.2 false with e | t
  · exact h
  · exact good_upsertAL rfl (fun t => rfl) h

theorem good_stepInclM {m : AL} (x : String) (h : GoodAL m) : GoodAL (stepInclM m x) := by
  rw [stepInclM_eq]
  exact good_upsertAL rfl (fun t => rfl) h

theorem good_stepStemM {m : AL} (x : String) (h : GoodAL m) : GoodAL (stepStemM m x) := by
  rw [stepStemM_eq]
  exact good_upsertAL rfl (fun t => rfl) h

theorem good_reconcileFrags (A I : List (String × Fragment)) (incl stems : List String) :
    GoodAL (reconcileFrags A I incl stems) := by
  have h0 : GoodAL ([] : AL) := ⟨List.nodup_nil, by intro p hp; simp at hp⟩
  have hA := foldl_preserve (fun a b ha => good_stepActiveM b ha) A [] h0
  have hI := foldl_preserve (fun a b ha => good_stepInactiveM b ha) I _ hA
  have hC := foldl_preserve (fun a b ha => good_stepInclM b ha) incl _ hI
  exact foldl_preserve (fun a b ha => good_stepStemM b ha) stems _ hC

/-- C9: for every reconciliation input, the list handed to the report and
the extractor is a permutation of the mapping's values, strictly sorted by
name in the codepoint order of `String`: the order is total on the output
and no two distinct records compare equal, because each name occurs
exactly once. -/
theorem c9_output_strictly_sorted (A I : List (String × Fragment)) (incl stems : List String) :
    (finalSnippets (reconcileFrags A I incl stems)).Pairwise (fun a b => a.name < b.name) ∧
    (finalSnippets (reconcileFrags A I incl stems)).Perm
      (valuesAL (reconcileFrags A I incl stems)) := by
  have hgood : GoodAL (reconcileFrags A I incl stems) := good_reconcileFrags A I incl stems
  have hperm : (finalSnippets (reconcileFrags A I incl stems)).Perm
      (valuesAL (reconcileFrags A I incl stems)) :=
    List.perm_insertionSort Snippet.nle (valuesAL (reconcileFrags A I incl stems))
  have hsorted : List.Sorted Snippet.nle (finalSnippets (reconcileFrags A I incl stems)) :=
    List.sorted_insertionSort Snippet.nle (valuesAL (reconcileFrags A I incl stems))
  have hnames : (valuesAL (reconcileFrags A I incl stems)).map Snippet.name
      = keysAL (reconcileFrags A I incl stems) := by
    unfold valuesAL keysAL
    rw [List.map_map]
    exact List.map_congr_left (fun p hp => hgood.2 p hp)
  have hnd : ((finalSnippets (reconcileFrags A I incl stems)).map Snippet.name).Nodup := by
    have hp2 : ((finalSnippets (reconcileFrags A I incl stems)).map Snippet.name).Perm
        ((valuesAL (reconcileFrags A I incl stems)).map Snippet.name) := hperm.map _
    rw [hnames] at hp2
    exact hp2.nodup_iff.mpr hgood.1
  have hpne : (finalSnippets (reconcileFrags A I incl stems)).Pairwise
      (fun a b => a.name ≠ b.name) := List.pairwise_map.mp hnd
  refine ⟨?_, hperm⟩
  have hand := List.Pairwise.and hsorted hpne
  exact hand.imp (fun h => lt_of_le_of_ne h.1 h.2)

theorem contentInv_stepActiveM {m : AL} (pf : String × Fragment) (h : ContentInv m) :
    ContentInv (stepActiveM m pf) := by
  unfold stepActiveM
  rcases hmk : mkTagSnippet pf.1 pf.2 true with e | t
  · exact h
  · intro p hp hsrc
    rcases mem_insertAL hp with h' | h'
    · subst h'
      obtain ⟨_, hc, hsf, _⟩ := mkTagSnippet_ok_fields hmk
      exact ⟨by simp [hc], by simp [hsf]⟩
    · exact h p h' hsrc

theorem contentInv_stepInactiveM {m : AL} (pf : String × Fragment) (h : ContentInv m) :
    ContentInv (stepInactiveM m pf) := by
  unfold stepInactiveM
  rcases hmk : mkTagSnippet pf.1 pf.2 false with e | t
  · exact h
  · intro p hp hsrc
    obtain ⟨_, hc, hsf, _⟩ := mkTagSnippet_ok_fields hmk
    rcases mem_upsertAL hp with h' | h' | h' | ⟨q, hq, he⟩
    · exact h p h' hsrc
    · subst h'
      exact ⟨by simp [hc], by simp [hsf]⟩
    · subst h'
      exact ⟨by simp [hc], by simp [hsf]⟩
    · subst he
      have := h q hq
      exact this hsrc

theorem contentInv_stepInclM {m : AL} (x : String) (h : ContentInv m) :
    ContentInv (stepInclM m x) := by
  rw [stepInclM_eq]
  intro p hp hsrc
  rcases mem_upsertAL hp with h' | h' | h' | ⟨q, hq, he⟩
  · exact h p h' hsrc
  · subst h'
    simp [inclDefault] at hsrc
  · subst h'
    simp [inclDefault] at hsrc
  · subst he
    have := h q hq
    exact this hsrc

theorem contentInv_stepStemM {m : AL} (x : String) (h : ContentInv m) :
    ContentInv (stepStemM m x) := by
  rw [stepStemM_eq]
  intro p hp hsrc
  rcases mem_upsertAL hp with h' | h' | h' | ⟨q, hq, he⟩
  · exact h p h' hsrc
  · subst h'
    simp [stemDefault] at hsrc
  · subst h'
    simp [stemDefault] at hsrc
  · subst he
    have := h q hq
    exact this hsrc

/-- C10: every record of the reconciled, sorted output with
foundInSource=true has both content and source_file present — the tag
passes always supply a body (possibly empty) and the file path, and no
later pass clears them — so the extractor's "source-found snippet without
content" warning branch cannot be reached from reconciliation output. -/
theorem c10_source_found_has_content (A I : List (String × Fragment)) (incl stems : List String)
    (s : Snippet) (hs : s ∈ finalSnippets (reconcileFrags A I incl stems))
    (hsrc : s.source = true) :
    s.content.isSome = true ∧ s.source_file.isSome = true := by
  have h0 : ContentInv ([] : AL) := by intro p hp; simp at hp
  have hA := foldl_preserve (fun a b ha => contentInv_stepActiveM b ha) A [] h0
  have hI := foldl_preserve (fun a b ha => contentInv_stepInactiveM b ha) I _ hA
  have hC := foldl_preserve (fun a b ha => contentInv_stepInclM b ha) incl _ hI
  have hinv : ContentInv (reconcileFrags A I incl stems) :=
    foldl_preserve (fun a b ha => contentInv_stepStemM b ha) stems _ hC
  have hmem : s ∈ valuesAL (reconcileFrags A I incl stems) :=
    (List.perm_insertionSort Snippet.nle _).mem_iff.mp hs
  obtain ⟨p, hp, he⟩ := List.mem_map.mp hmem
  rw [← he]
  exact hinv p hp (by rw [he]; exact hsrc)

/-- Witness for c10_source_found_has_content: the single record produced by
one active sighting of `n` is source-found and carries content `B` and
source file `f.cpp`. -/
theorem c10_source_found_has_content_witness :
    ({ name := "n", content := some "B", source_file := some "f.cpp", comment := none,
       active := true, source := true, latex := false, extracted := false } : Snippet).content.isSome = true ∧
    ({ name := "n", content := some "B", source_file := some "f.cpp", comment := none,
       active := true, source := true, latex := false, extracted := false } : Snippet).source_file.isSome = true :=
  c10_source_found_has_content [("f.cpp", fragB)] [] [] []
    { name := "n", content := some "B", source_file := some "f.cpp", comment := none,
      active := true, source := true, latex := false, extracted := false }
    (by decide) (by decide)

end Snipper
